import Mathlib

/-!
Verification of the numerical core of the retinex_pde repository.

The C sources are shallowly embedded: float and double arithmetic is
modelled by exact arithmetic (ℚ where every operation of the modelled
function is rational, ℝ where the code calls cos or sqrt), machine
integer casts are modelled explicitly, and each embedded definition keeps
the name of the C function it is translated from.
-/

namespace RetinexPde

/-- Truncation toward zero: the semantics of the C cast (int) applied to a
value in the representable range, as used in normalize_histo_lib.c. -/
def c_int (x : ℚ) : ℤ := if 0 ≤ x then ⌊x⌋ else ⌈x⌉

/-- Rounding as written throughout normalize_histo_lib.c: (int)(x + .5). -/
def rnd (x : ℚ) : ℤ := c_int (x + 1 / 2)

/-- Model of minmax_f32 (normalize_histo_lib.c lines 42-76): min and max are
initialized with data[0] and updated by a scan of the rest of the array.
The C function is only ever called with a nonempty array; on [] the model
returns (0, 0). -/
def minmax_f32 : List ℚ → ℚ × ℚ
  | [] => (0, 0)
  | x :: xs => (xs.foldl min x, xs.foldl max x)

/-- Model of minmax_histo_f32 (normalize_histo_lib.c lines 98-196).
The histogram over rounded values is built by counting (the C fills the same
bins by one pass over the data), cum is the cumulative histogram, and the two
walks of the C code are expressed by their results: the forward walk stops at
the first cell with cumulative count strictly above nb_min (C leaves the
pointer at histo_end when there is none, index hsize, which is what
List.findIdx returns); because the cumulative histogram is monotone, the
backward walk plus the final increment lands on the first cell with
cumulative count strictly above size - nb_max when such a cell exists, and
stays at the last cell (index hsize - 1) otherwise. -/
def minmax_histo_f32 (data : List ℚ) (nb_min nb_max : ℕ) : ℚ × ℚ :=
  let size := data.length
  let clamped := size ≤ nb_min + nb_max
  let nbmin := if clamped then (size - 1) / 2 else nb_min
  let nbmax := if clamped then (size - 1) / 2 else nb_max
  let mn := (minmax_f32 data).1
  let mx := (minmax_f32 data).2
  let offset : ℤ := rnd mn
  let hsize : ℕ := (rnd mx - offset).toNat + 1
  let bins : List ℕ := data.map (fun x => (rnd x - offset).toNat)
  let histo : List ℕ := (List.range hsize).map (fun b => bins.count b)
  let cum : List ℕ := (List.scanl (· + ·) 0 histo).tail
  let bmin : ℕ := List.findIdx (fun c => decide (nbmin < c)) cum
  let k : ℕ := List.findIdx (fun c => decide (size - nbmax < c)) cum
  let bmax : ℕ := if k = hsize then hsize - 1 else k
  ((((bmin : ℤ) + offset : ℤ) : ℚ), (((bmax : ℤ) + offset : ℤ) : ℚ))

/-- Model of normalize_histo_f32 (normalize_histo_lib.c lines 213-286).
The boolean records whether the too-many-flattened-pixels warning was
printed to stderr (the value clamping of the C code is modelled; its
fprintf is modelled by this flag). -/
def normalize_histo_f32 (data : List ℚ) (target_min target_max : ℚ)
    (flat_nb_min flat_nb_max : ℕ) : List ℚ × Bool :=
  let size := data.length
  let warn := size ≤ flat_nb_min + flat_nb_max
  let nbmin := if warn then (size - 1) / 2 else flat_nb_min
  let nbmax := if warn then (size - 1) / 2 else flat_nb_max
  if target_max = target_min then (data.map fun _ => target_min, warn)
  else
    let mm := if nbmin ≠ 0 ∨ nbmax ≠ 0 then minmax_histo_f32 data nbmin nbmax
              else minmax_f32 data
    if mm.2 ≤ mm.1 then (data.map fun _ => (target_max + target_min) / 2, warn)
    else
      let scale : ℚ := (target_max - target_min) / (mm.2 - mm.1)
      (data.map fun x =>
        if x < mm.1 then target_min
        else if x < mm.2 then (x - mm.1) * scale + target_min
        else target_max, warn)

/-- Contribution of one difference in discrete_laplacian_threshold: the
difference is kept when its absolute value is strictly above t. -/
def thresh (t d : ℚ) : ℚ := if t < |d| then d else 0

/-- Model of discrete_laplacian_threshold (retinex_pde_lib.c lines 80-149,
primary implementation): each in-range cell sums the guarded differences
center minus neighbour, in the order x-1, x+1, y-1, y+1. -/
def discrete_laplacian_threshold (nx ny : ℕ) (t : ℚ) (f : ℕ → ℕ → ℚ)
    (i j : ℕ) : ℚ :=
  (((if 0 < i then thresh t (f i j - f (i - 1) j) else 0)
    + (if i < nx - 1 then thresh t (f i j - f (i + 1) j) else 0))
    + (if 0 < j then thresh t (f i j - f i (j - 1)) else 0))
    + (if j < ny - 1 then thresh t (f i j - f i (j + 1)) else 0)

/-- Model of the historical lmps variant of discrete_laplacian_threshold
(lmps_retinex_poisson_equation/src/retinex_pde_lib.c lines 71-140): the same
traversal and guards, with each difference taken as neighbour minus center. -/
def lmps_discrete_laplacian_threshold (nx ny : ℕ) (t : ℚ) (f : ℕ → ℕ → ℚ)
    (i j : ℕ) : ℚ :=
  (((if 0 < i then thresh t (f (i - 1) j - f i j) else 0)
    + (if i < nx - 1 then thresh t (f (i + 1) j - f i j) else 0))
    + (if 0 < j then thresh t (f i (j - 1) - f i j) else 0))
    + (if j < ny - 1 then thresh t (f i (j + 1) - f i j) else 0)

/-- List of the existing 4-neighbours of cell (i, j) in an nx x ny grid, as
described by the spec (section 4.1). -/
def neighbors (nx ny i j : ℕ) : List (ℕ × ℕ) :=
  (if 0 < i then [(i - 1, j)] else [])
    ++ (if i < nx - 1 then [(i + 1, j)] else [])
    ++ (if 0 < j then [(i, j - 1)] else [])
    ++ (if j < ny - 1 then [(i, j + 1)] else [])

/-- Laplacian as the spec states it: the sum over existing 4-neighbours of
the thresholded difference center minus neighbour. -/
def laplacian_spec (nx ny : ℕ) (t : ℚ) (f : ℕ → ℕ → ℚ) (i j : ℕ) : ℚ :=
  ((neighbors nx ny i j).map (fun p => thresh t (f i j - f p.1 p.2))).sum

/-- The input channel of concrete scenario B of the spec: 0, 1, ..., 99. -/
def data100 : List ℚ := (List.range 100).map (fun n => (n : ℚ))

/-- Model of mean_dt (norm_mean_dt.c lines 37-61): population mean and
population standard deviation, computed exactly as the code does:
mean = sum / size, dt = sqrt(sum of squares / size - mean * mean).
The code calls sqrt, so this part of the embedding lives in ℝ. -/
noncomputable def mean_dt (data : List ℝ) : ℝ × ℝ :=
  (data.sum / data.length,
    Real.sqrt ((data.map fun x => x * x).sum / data.length
      - data.sum / data.length * (data.sum / data.length)))

/-- Model of norm_dt (norm_mean_dt.c lines 74-103): the affine map
x to a * x + b with a = dt_ref / dt_data and b = mean_ref - a * mean_data is
applied to every sample; the code contains no check on dt_data. -/
noncomputable def norm_dt (data ref : List ℝ) : List ℝ :=
  data.map fun x =>
    (mean_dt ref).2 / (mean_dt data).2 * x
      + ((mean_dt ref).1 - (mean_dt ref).2 / (mean_dt data).2 * (mean_dt data).1)

/-- Model of cos_table (retinex_pde_lib.c lines 160-181):
table i = cos(i * pi / n), written as the code computes it, (pi / n) * i. -/
noncomputable def cos_table (n : ℕ) (i : ℕ) : ℝ := Real.cos (Real.pi / n * i)

/-- Model of retinex_poisson_dct (retinex_pde_lib.c lines 203-245): the DC
coefficient (linear index 0) is set to 0 and every other in-range linear
index i is multiplied by (m / 2) / (2 - cosx[i % nx] - cosy[i / nx]). -/
noncomputable def retinex_poisson_dct (nx ny : ℕ) (m : ℝ) (data : ℕ → ℝ)
    (i : ℕ) : ℝ :=
  if i = 0 then 0
  else if i < nx * ny then
    data i * (m / 2 / (2 - cos_table nx (i % nx) - cos_table ny (i / nx)))
  else data i

/-- Angle helper for the DCT definitions:
ang n t r = pi * (2 t + 1) / (2 n) * r = pi * (t + 1/2) * r / n. -/
noncomputable def ang (n t r : ℕ) : ℝ :=
  Real.pi * (2 * t + 1) / (2 * n) * r

/-- Modelled from the spec: the forward transform capability used by
retinex_pde (retinex_pde_lib.c lines 314-335) is FFTW's REDFT10, the
unnormalized type-II DCT, whose implementation lives in the external FFTW
library and not in this repository. FFTW defines it as
Y k = 2 * sum over j < n of X j * cos(pi (j + 1/2) k / n). -/
noncomputable def redft10 (n : ℕ) (x : ℕ → ℝ) (k : ℕ) : ℝ :=
  2 * ∑ j ∈ Finset.range n, x j * Real.cos (ang n j k)

/-- Modelled from the spec: the inverse transform capability is FFTW's
REDFT01, the unnormalized type-III DCT, defined by FFTW as
Y k = X 0 + 2 * sum over 1 <= j < n of X j * cos(pi j (k + 1/2) / n);
note that cos(pi j (k + 1/2) / n) = cos(ang n k j). -/
noncomputable def redft01 (n : ℕ) (x : ℕ → ℝ) (k : ℕ) : ℝ :=
  x 0 + 2 * ∑ j ∈ Finset.Ico 1 n, x j * Real.cos (ang n k j)

/-- The 2D forward transform: REDFT10 applied along both dimensions, as the
fftwf_plan_r2r_2d(ny, nx, REDFT10, REDFT10) plan of retinex_pde computes. -/
noncomputable def fwd2d (w h : ℕ) (f : ℕ → ℕ → ℝ) (i j : ℕ) : ℝ :=
  redft10 h (fun l => redft10 w (fun k => f k l) i) j

/-- The 2D inverse transform: REDFT01 applied along both dimensions. -/
noncomputable def inv2d (w h : ℕ) (F : ℕ → ℕ → ℝ) (i j : ℕ) : ℝ :=
  redft01 h (fun l => redft01 w (fun k => F k l) i) j

end RetinexPde

namespace RetinexPde

/-- C5: for every channel, threshold and cell, the primary
discrete_laplacian_threshold equals the sum, over the existing 4-neighbours,
of the difference center minus neighbour kept exactly when its absolute
value is strictly greater than t (missing border neighbours contribute
nothing), and with t = 0 every nonzero difference passes. -/
theorem discrete_laplacian_threshold_spec :
    ∀ (nx ny : ℕ) (t : ℚ) (f : ℕ → ℕ → ℚ) (i j : ℕ),
      discrete_laplacian_threshold nx ny t f i j = laplacian_spec nx ny t f i j
      ∧ ∀ d : ℚ, thresh 0 d = d := by
  intro nx ny t f i j
  constructor
  · unfold discrete_laplacian_threshold laplacian_spec neighbors
    split_ifs <;> simp <;> ring
  · intro d
    unfold thresh
    split_ifs with h
    · rfl
    · push_neg at h
      have h0 : |d| = 0 := le_antisymm h (abs_nonneg d)
      rw [abs_eq_zero] at h0
      exact h0.symm

theorem foldl_min_le (xs : List ℚ) (a : ℚ) :
    xs.foldl min a ≤ a ∧ ∀ y ∈ xs, xs.foldl min a ≤ y := by
  induction xs generalizing a with
  | nil => exact ⟨le_refl a, by simp⟩
  | cons x xs ih =>
    simp only [List.foldl_cons]
    refine ⟨le_trans (ih (min a x)).1 (min_le_left a x), ?_⟩
    intro y hy
    rcases List.mem_cons.mp hy with h | h
    · subst h
      exact le_trans (ih (min a y)).1 (min_le_right a y)
    · exact (ih (min a x)).2 y h

theorem le_foldl_max (xs : List ℚ) (a : ℚ) :
    a ≤ xs.foldl max a ∧ ∀ y ∈ xs, y ≤ xs.foldl max a := by
  induction xs generalizing a with
  | nil => exact ⟨le_refl a, by simp⟩
  | cons x xs ih =>
    simp only [List.foldl_cons]
    refine ⟨le_trans (le_max_left a x) (ih (max a x)).1, ?_⟩
    intro y hy
    rcases List.mem_cons.mp hy with h | h
    · subst h
      exact le_trans (le_max_right a y) (ih (max a y)).1
    · exact (ih (max a x)).2 y h

theorem minmax_f32_bounds (l : List ℚ) :
    ∀ x ∈ l, (minmax_f32 l).1 ≤ x ∧ x ≤ (minmax_f32 l).2 := by
  intro x hx
  cases l with
  | nil => cases hx
  | cons a xs =>
    simp only [minmax_f32]
    rcases List.mem_cons.mp hx with h | h
    · subst h
      exact ⟨(foldl_min_le xs x).1, (le_foldl_max xs x).1⟩
    · exact ⟨(foldl_min_le xs a).2 x h, (le_foldl_max xs a).2 x h⟩

/-- C6: with both saturation counts zero and a non-degenerate target range,
normalize_histo_f32 is the exact linear min-max rescale with the buffer's
true minimum and maximum: every output sample, including the ones the code
routes through its clamping branches, equals
(x - min) * (target_max - target_min) / (max - min) + target_min.
The hypothesis min < max is the well-definedness domain of that formula
(a constant buffer is sent to the midpoint of the target range instead). -/
theorem percentile_minmax_exact_rescale (data : List ℚ) (tmin tmax : ℚ)
    (ht : tmin ≠ tmax) (hmm : (minmax_f32 data).1 < (minmax_f32 data).2) :
    (normalize_histo_f32 data tmin tmax 0 0).1
      = data.map (fun x =>
          (x - (minmax_f32 data).1) * (tmax - tmin)
            / ((minmax_f32 data).2 - (minmax_f32 data).1) + tmin) := by
  have hne : data ≠ [] := by
    intro h
    rw [h] at hmm
    simp [minmax_f32] at hmm
  have hwarn : ¬ (data.length ≤ 0 + 0) := by
    have := List.length_pos.mpr hne
    omega
  have htm : ¬ (tmax = tmin) := fun h => ht h.symm
  have hle : ¬ ((minmax_f32 data).2 ≤ (minmax_f32 data).1) := not_le.mpr hmm
  have hd : (minmax_f32 data).2 - (minmax_f32 data).1 ≠ 0 := sub_ne_zero.mpr (ne_of_gt hmm)
  simp only [normalize_histo_f32, if_neg hwarn, if_neg htm, ne_eq,
    not_true_eq_false, false_or, if_false, or_self, if_neg hle]
  apply List.map_congr_left
  intro x hx
  obtain ⟨h1, h2⟩ := minmax_f32_bounds data x hx
  rw [if_neg (not_lt.mpr h1)]
  by_cases hx2 : x < (minmax_f32 data).2
  · rw [if_pos hx2, mul_div_assoc]
  · have hxe : x = (minmax_f32 data).2 := le_antisymm h2 (not_lt.mp hx2)
    rw [if_neg hx2, hxe, mul_comm, mul_div_assoc, div_self hd, mul_one]
    ring

/-- C6 (counterexample): on the constant buffer [7, 7] with target range
[0, 255] and k_min = k_max = 0, the code writes the target midpoint 127.5 to
every sample (its max <= min branch), which is not what the claimed rescale
formula produces: the formula's denominator max - min vanishes there (under
the division-by-zero convention of ℚ it evaluates to target_min = 0), so the
claim fails on constant buffers. -/
theorem percentile_minmax_constant_counterexample :
    (normalize_histo_f32 [(7 : ℚ), 7] 0 255 0 0).1 = [255 / 2, 255 / 2]
    ∧ ¬ ((normalize_histo_f32 [(7 : ℚ), 7] 0 255 0 0).1
        = [(7 : ℚ), 7].map (fun x =>
            (x - (minmax_f32 [(7 : ℚ), 7]).1) * (255 - 0)
              / ((minmax_f32 [(7 : ℚ), 7]).2 - (minmax_f32 [(7 : ℚ), 7]).1)
              + 0)) := by
  constructor
  · with_unfolding_all decide
  · with_unfolding_all decide

/-- C6 witness: concrete instance of the exact rescale theorem on the buffer
[1, 3] with target range [0, 10]. -/
theorem percentile_minmax_exact_rescale_witness :
    ((0 : ℚ) ≠ 10 ∧ (minmax_f32 [(1 : ℚ), 3]).1 < (minmax_f32 [(1 : ℚ), 3]).2)
    ∧ (normalize_histo_f32 [(1 : ℚ), 3] 0 10 0 0).1
      = ([(1 : ℚ), 3]).map (fun x =>
          (x - (minmax_f32 [(1 : ℚ), 3]).1) * (10 - 0)
            / ((minmax_f32 [(1 : ℚ), 3]).2 - (minmax_f32 [(1 : ℚ), 3]).1) + 0) :=
  ⟨⟨by norm_num, by with_unfolding_all decide⟩,
    percentile_minmax_exact_rescale [(1 : ℚ), 3] 0 10 (by norm_num)
      (by with_unfolding_all decide)⟩

/-- C8: when the saturation counts reach the buffer size, normalize_histo_f32
proceeds with both counts clamped to (size - 1) / 2 and reports the fallback
(the warning flag of the model is true), instead of failing or using the
original counts. -/
theorem normalize_histo_clamp_reports (data : List ℚ) (tmin tmax : ℚ)
    (nbmin nbmax : ℕ) (h1 : 1 ≤ data.length)
    (h2 : data.length ≤ nbmin + nbmax) :
    normalize_histo_f32 data tmin tmax nbmin nbmax
      = ((normalize_histo_f32 data tmin tmax ((data.length - 1) / 2)
            ((data.length - 1) / 2)).1, true) := by
  have h3 : ¬ (data.length ≤ (data.length - 1) / 2 + (data.length - 1) / 2) := by
    omega
  simp only [normalize_histo_f32, if_pos h2, if_neg h3, decide_eq_true_eq,
    eq_true h2, eq_false h3, decide_True, decide_False]
  split_ifs <;> rfl

/-- C8 witness: the buffer [1, 2, 3] with counts 2 + 2 >= 3. -/
theorem normalize_histo_clamp_reports_witness :
    (1 ≤ ([(1 : ℚ), 2, 3]).length ∧ ([(1 : ℚ), 2, 3]).length ≤ 2 + 2)
    ∧ normalize_histo_f32 [(1 : ℚ), 2, 3] 0 255 2 2
      = ((normalize_histo_f32 [(1 : ℚ), 2, 3] 0 255
            ((([(1 : ℚ), 2, 3]).length - 1) / 2)
            ((([(1 : ℚ), 2, 3]).length - 1) / 2)).1, true) :=
  ⟨⟨by norm_num, by norm_num⟩,
    normalize_histo_clamp_reports [(1 : ℚ), 2, 3] 0 255 2 2 (by norm_num)
      (by norm_num)⟩

set_option maxRecDepth 40000 in
/-- C1 (counterexample): on the buffer 0, 1, ..., 99 with k_min = k_max = 5
and target range [0, 255], the effective max computed by minmax_histo_f32 is
not 94, and sample 50 is not mapped to (50 - 5) * 255 / 89: the claimed
scenario values are refuted on the code. -/
theorem scenarioB_counterexample :
    ¬ ((minmax_histo_f32 data100 5 5).2 = 94
       ∧ (normalize_histo_f32 data100 0 255 5 5).1[50]?
           = some ((50 - 5) * 255 / 89)) := by
  with_unfolding_all decide

set_option maxRecDepth 40000 in
/-- C1 (amended): on the buffer 0, 1, ..., 99 with k_min = k_max = 5 and
target range [0, 255], the effective min is 5 and the effective max is 95
(scale 255 / 90): sample 2 maps to 0 (clamped), sample 97 maps to 255
(clamped), and sample 50 maps to (50 - 5) * 255 / 90 = 127.5. -/
theorem scenarioB_amended :
    minmax_histo_f32 data100 5 5 = (5, 95)
    ∧ (normalize_histo_f32 data100 0 255 5 5).1[2]? = some 0
    ∧ (normalize_histo_f32 data100 0 255 5 5).1[97]? = some 255
    ∧ (normalize_histo_f32 data100 0 255 5 5).1[50]?
        = some ((50 - 5) * 255 / 90) := by
  with_unfolding_all decide

/-- C10: at every cell, the historical lmps Laplacian (difference taken as
neighbour minus center) is the negation of the primary Laplacian (difference
taken as center minus neighbour). -/
theorem lmps_laplacian_neg :
    ∀ (nx ny : ℕ) (t : ℚ) (f : ℕ → ℕ → ℚ) (i j : ℕ),
      lmps_discrete_laplacian_threshold nx ny t f i j
        = - discrete_laplacian_threshold nx ny t f i j := by
  intro nx ny t f i j
  have hneg : ∀ a b : ℚ, thresh t (a - b) = - thresh t (b - a) := by
    intro a b
    simp only [thresh, abs_sub_comm a b]
    split_ifs <;> ring
  unfold lmps_discrete_laplacian_threshold discrete_laplacian_threshold
  rw [hneg (f (i - 1) j) (f i j), hneg (f (i + 1) j) (f i j),
    hneg (f i (j - 1)) (f i j), hneg (f i (j + 1)) (f i j)]
  split_ifs <;> ring

/-- C2: on the constant buffer [5, 5, 5] the standard deviation computed by
mean_dt is exactly 0, and norm_dt still returns a full output buffer: the
code has no failure path, it divides by the zero standard deviation. -/
theorem norm_dt_constant_data_divisor_zero :
    (mean_dt [(5 : ℝ), 5, 5]).2 = 0
    ∧ (norm_dt [(5 : ℝ), 5, 5] [0, 1, 2]).length = 3 := by
  constructor
  · simp only [mean_dt, List.map_cons, List.map_nil, List.sum_cons,
      List.sum_nil, List.length_cons, List.length_nil]
    norm_num
  · simp [norm_dt]

theorem mean_dt_dt_nonneg (l : List ℝ) : 0 ≤ (mean_dt l).2 :=
  Real.sqrt_nonneg _

theorem sum_map_affine (a b : ℝ) (l : List ℝ) :
    (l.map fun x => a * x + b).sum = a * l.sum + l.length * b := by
  induction l with
  | nil => simp
  | cons x xs ih =>
    simp only [List.map_cons, List.sum_cons, ih, List.length_cons]
    push_cast
    ring

theorem sum_map_affine_sq (a b : ℝ) (l : List ℝ) :
    ((l.map fun x => a * x + b).map fun x => x * x).sum
      = a * a * (l.map fun x => x * x).sum + 2 * (a * b) * l.sum
        + l.length * (b * b) := by
  induction l with
  | nil => simp
  | cons x xs ih =>
    simp only [List.map_cons, List.sum_cons, ih, List.length_cons]
    push_cast
    ring

theorem mean_dt_map_affine (a b : ℝ) (l : List ℝ)
    (hl : (l.length : ℝ) ≠ 0) :
    (mean_dt (l.map fun x => a * x + b)).1 = a * (mean_dt l).1 + b
    ∧ (mean_dt (l.map fun x => a * x + b)).2 = |a| * (mean_dt l).2 := by
  constructor
  · simp only [mean_dt, sum_map_affine, List.length_map]
    field_simp
    ring
  · simp only [mean_dt, sum_map_affine, sum_map_affine_sq, List.length_map]
    have hE : (a * a * (l.map fun x => x * x).sum + 2 * (a * b) * l.sum
          + l.length * (b * b)) / l.length
        - (a * l.sum + l.length * b) / l.length
          * ((a * l.sum + l.length * b) / l.length)
        = (a * a) * ((l.map fun x => x * x).sum / l.length
            - l.sum / l.length * (l.sum / l.length)) := by
      field_simp
      ring
    rw [hE, Real.sqrt_mul (mul_self_nonneg a), Real.sqrt_mul_self_eq_abs]

/-- C7: for every data and reference buffer of equal size whose population
standard deviations are both nonzero, the buffer produced by norm_dt has
exactly the mean and standard deviation of the reference (exact equality in
the real model, hence within any relative tolerance). -/
theorem norm_dt_matches_reference_moments (data ref : List ℝ)
    (_hlen : data.length = ref.length)
    (hd : (mean_dt data).2 ≠ 0) (_hr : (mean_dt ref).2 ≠ 0) :
    (mean_dt (norm_dt data ref)).1 = (mean_dt ref).1
    ∧ (mean_dt (norm_dt data ref)).2 = (mean_dt ref).2 := by
  have hnil : data ≠ [] := by
    intro h
    apply hd
    rw [h]
    simp [mean_dt]
  have hlen0 : ((data.length : ℕ) : ℝ) ≠ 0 := by
    have := List.length_pos.mpr hnil
    exact_mod_cast Nat.pos_iff_ne_zero.mp this
  have hmap := mean_dt_map_affine ((mean_dt ref).2 / (mean_dt data).2)
    ((mean_dt ref).1 - (mean_dt ref).2 / (mean_dt data).2 * (mean_dt data).1)
    data hlen0
  have hnd : norm_dt data ref
      = data.map fun x =>
          (mean_dt ref).2 / (mean_dt data).2 * x
            + ((mean_dt ref).1
              - (mean_dt ref).2 / (mean_dt data).2 * (mean_dt data).1) := rfl
  have ha : 0 ≤ (mean_dt ref).2 / (mean_dt data).2 :=
    div_nonneg (mean_dt_dt_nonneg ref)
      (mean_dt_dt_nonneg data)
  constructor
  · rw [hnd, hmap.1]
    ring
  · rw [hnd, hmap.2, abs_of_nonneg ha, div_mul_cancel₀ _ hd]

/-- C7 witness: data [0, 2] against reference [1, 3]; both standard
deviations are 1. -/
theorem norm_dt_matches_reference_moments_witness :
    (([(0 : ℝ), 2]).length = ([(1 : ℝ), 3]).length
      ∧ (mean_dt [(0 : ℝ), 2]).2 ≠ 0 ∧ (mean_dt [(1 : ℝ), 3]).2 ≠ 0)
    ∧ ((mean_dt (norm_dt [(0 : ℝ), 2] [(1 : ℝ), 3])).1 = (mean_dt [(1 : ℝ), 3]).1
      ∧ (mean_dt (norm_dt [(0 : ℝ), 2] [(1 : ℝ), 3])).2
          = (mean_dt [(1 : ℝ), 3]).2) := by
  have hd : (mean_dt [(0 : ℝ), 2]).2 ≠ 0 := by
    simp only [mean_dt, List.map_cons, List.map_nil, List.sum_cons,
      List.sum_nil, List.length_cons, List.length_nil]
    norm_num
  have hr : (mean_dt [(1 : ℝ), 3]).2 ≠ 0 := by
    simp only [mean_dt, List.map_cons, List.map_nil, List.sum_cons,
      List.sum_nil, List.length_cons, List.length_nil]
    norm_num
  exact ⟨⟨rfl, hd, hr⟩,
    norm_dt_matches_reference_moments [(0 : ℝ), 2] [(1 : ℝ), 3] rfl hd hr⟩

theorem cos_table_le_one (n i : ℕ) : cos_table n i ≤ 1 :=
  Real.cos_le_one _

theorem cos_table_zero_eq_one (n : ℕ) : cos_table n 0 = 1 := by
  simp [cos_table]

theorem cos_table_lt_one (n i : ℕ) (h1 : 0 < i) (h2 : i < n) :
    cos_table n i < 1 := by
  have hn : 0 < n := lt_of_le_of_lt (Nat.zero_le i) h2
  have hnR : (0 : ℝ) < n := by exact_mod_cast hn
  have hiR : (0 : ℝ) < i := by exact_mod_cast h1
  have hx : 0 < Real.pi / n * i := mul_pos (div_pos Real.pi_pos hnR) hiR
  have hx2 : Real.pi / n * i < 2 * Real.pi := by
    have hlt : Real.pi / n * i < Real.pi / n * n :=
      mul_lt_mul_of_pos_left (by exact_mod_cast h2)
        (div_pos Real.pi_pos hnR)
    have heq : Real.pi / n * n = Real.pi := div_mul_cancel₀ _ (ne_of_gt hnR)
    have hpi : Real.pi < 2 * Real.pi := by linarith [Real.pi_pos]
    linarith
  have hne : Real.cos (Real.pi / n * i) ≠ 1 := by
    intro h
    rw [Real.cos_eq_one_iff_of_lt_of_lt (by linarith) hx2] at h
    exact ne_of_gt hx h
  exact lt_of_le_of_ne (Real.cos_le_one _) hne

theorem poisson_kernel_pos (nx ny k l : ℕ) (hk : k < nx) (hl : l < ny)
    (hne : ¬ (k = 0 ∧ l = 0)) :
    0 < 2 - cos_table nx k - cos_table ny l := by
  rcases Nat.eq_zero_or_pos k with hk0 | hkpos
  · have hl0 : 0 < l := by omega
    have h1 : cos_table nx k = 1 := by rw [hk0, cos_table_zero_eq_one]
    have h2 : cos_table ny l < 1 := cos_table_lt_one ny l hl0 hl
    linarith
  · have h1 : cos_table nx k < 1 := cos_table_lt_one nx k hkpos hk
    have h2 : cos_table ny l ≤ 1 := cos_table_le_one ny l
    linarith

theorem kernel_divisor_pos_aux (nx ny i : ℕ) (h1 : 1 ≤ i) (h2 : i < nx * ny) :
    0 < 2 - cos_table nx (i % nx) - cos_table ny (i / nx) := by
  have hnx : 0 < nx := by
    rcases Nat.eq_zero_or_pos nx with h | h
    · rw [h, Nat.zero_mul] at h2
      omega
    · exact h
  have hny : 0 < ny := by
    rcases Nat.eq_zero_or_pos ny with h | h
    · rw [h, Nat.mul_zero] at h2
      omega
    · exact h
  have hk : i % nx < nx := Nat.mod_lt i hnx
  have hl : i / nx < ny := Nat.div_lt_of_lt_mul h2
  apply poisson_kernel_pos nx ny _ _ hk hl
  rintro ⟨hm, hdiv⟩
  have := Nat.mod_add_div i nx
  rw [hm, hdiv, Nat.mul_zero, Nat.add_zero] at this
  omega

/-- C9: for every w, h and every linear index i with 1 <= i < w * h, the
Poisson kernel divisor 2 - cos((i mod w) pi / w) - cos((i div w) pi / h) is
strictly positive, so the per-frequency division of retinex_poisson_dct
never divides by zero (index 0 is handled separately). -/
theorem poisson_kernel_divisor_pos (nx ny i : ℕ) (h1 : 1 ≤ i)
    (h2 : i < nx * ny) :
    0 < 2 - cos_table nx (i % nx) - cos_table ny (i / nx) :=
  kernel_divisor_pos_aux nx ny i h1 h2

/-- C9 witness: w = 2, h = 1, linear index 1. -/
theorem poisson_kernel_divisor_pos_witness :
    (1 ≤ 1 ∧ 1 < 2 * 1)
    ∧ 0 < 2 - cos_table 2 (1 % 2) - cos_table 1 (1 / 2) :=
  ⟨⟨le_refl 1, by norm_num⟩,
    poisson_kernel_divisor_pos 2 1 1 (le_refl 1) (by norm_num)⟩

/-- C4: retinex_poisson_dct sets the DC coefficient to 0, and at every other
in-range linear index i its update with (m / 2) / (2 - cosx - cosy) equals
the spec's S(i,j) * m / D(i,j) with kernel
D(i,j) = 4 - 2 cos(i pi / w) - 2 cos(j pi / h), i = i mod w, j = i div w. -/
theorem retinex_poisson_dct_spec (nx ny : ℕ) (m : ℝ) (data : ℕ → ℝ) :
    retinex_poisson_dct nx ny m data 0 = 0
    ∧ ∀ i, 1 ≤ i → i < nx * ny →
        retinex_poisson_dct nx ny m data i
          = data i * m
              / (4 - 2 * cos_table nx (i % nx) - 2 * cos_table ny (i / nx)) := by
  constructor
  · simp [retinex_poisson_dct]
  · intro i h1 h2
    have hpos := kernel_divisor_pos_aux nx ny i h1 h2
    have hne : 2 - cos_table nx (i % nx) - cos_table ny (i / nx) ≠ 0 :=
      ne_of_gt hpos
    have h4 : 4 - 2 * cos_table nx (i % nx) - 2 * cos_table ny (i / nx)
        = 2 * (2 - cos_table nx (i % nx) - cos_table ny (i / nx)) := by
      ring
    simp only [retinex_poisson_dct, if_neg (by omega : ¬ i = 0), if_pos h2]
    rw [h4]
    field_simp

/-- C4 witness: w = 2, h = 1, m = 1, constant spectral data, index 1. -/
theorem retinex_poisson_dct_spec_witness :
    retinex_poisson_dct 2 1 1 (fun _ => 1) 0 = 0
    ∧ (1 ≤ 1 ∧ 1 < 2 * 1
      ∧ retinex_poisson_dct 2 1 1 (fun _ => 1) 1
          = 1 * 1 / (4 - 2 * cos_table 2 (1 % 2) - 2 * cos_table 1 (1 / 2))) :=
  ⟨(retinex_poisson_dct_spec 2 1 1 (fun _ => 1)).1,
    le_refl 1, by norm_num,
    (retinex_poisson_dct_spec 2 1 1 (fun _ => 1)).2 1 (le_refl 1) (by norm_num)⟩

theorem sum_cos_telescope (θ : ℝ) (n : ℕ) :
    (∑ r ∈ Finset.range n, Real.cos (θ * r)) * (2 * Real.sin (θ / 2))
      = Real.sin (θ * n - θ / 2) + Real.sin (θ / 2) := by
  have h : ∀ r : ℕ, Real.cos (θ * r) * (2 * Real.sin (θ / 2))
      = Real.sin (θ * ((r + 1 : ℕ) : ℝ) - θ / 2)
        - Real.sin (θ * (r : ℝ) - θ / 2) := by
    intro r
    push_cast
    have e1 : θ * ((r : ℝ) + 1) - θ / 2 = θ * r + θ / 2 := by ring
    rw [e1, Real.sin_add, Real.sin_sub]
    ring
  rw [Finset.sum_mul, Finset.sum_congr rfl (fun r _ => h r),
    Finset.sum_range_sub (fun r : ℕ => Real.sin (θ * (r : ℝ) - θ / 2)) n]
  have e2 : θ * ((0 : ℕ) : ℝ) - θ / 2 = -(θ / 2) := by push_cast; ring
  rw [e2, Real.sin_neg]
  ring

theorem sum_cos_int (n : ℕ) (p : ℤ) (hn : 0 < n)
    (hp : ¬ ((2 * (n : ℤ)) ∣ p)) :
    ∑ r ∈ Finset.range n, Real.cos (Real.pi * p / n * r)
      = if Odd p then 1 else 0 := by
  have hnR : ((n : ℕ) : ℝ) ≠ 0 := Nat.cast_ne_zero.mpr (Nat.pos_iff_ne_zero.mp hn)
  have hπ : Real.pi ≠ 0 := ne_of_gt Real.pi_pos
  have hs : Real.sin (Real.pi * p / n / 2) ≠ 0 := by
    intro hzero
    rw [Real.sin_eq_zero_iff] at hzero
    obtain ⟨m, hm⟩ := hzero
    apply hp
    refine ⟨m, ?_⟩
    have hR : (p : ℝ) = 2 * n * m := by
      field_simp at hm
      have h2 : Real.pi * (2 * (n : ℝ) * m) = Real.pi * p := by
        linear_combination hm
      have h3 := mul_left_cancel₀ hπ h2
      linarith
    exact_mod_cast hR
  have h2s : (2 : ℝ) * Real.sin (Real.pi * p / n / 2) ≠ 0 := by
    intro h
    apply hs
    linarith
  have htel := sum_cos_telescope (Real.pi * p / n) n
  have hend : Real.sin (Real.pi * p / n * n - Real.pi * p / n / 2)
      = -((-1) ^ p * Real.sin (Real.pi * p / n / 2)) := by
    have e : Real.pi * p / n * n - Real.pi * p / n / 2
        = (p : ℝ) * Real.pi - Real.pi * p / n / 2 := by
      field_simp
      ring
    rw [e, Real.sin_int_mul_pi_sub]
  rw [hend] at htel
  rcases Int.even_or_odd p with he | ho
  · rw [if_neg (Int.not_odd_iff_even.mpr he)]
    apply mul_right_cancel₀ h2s
    rw [htel, he.neg_one_zpow]
    ring
  · rw [if_pos ho]
    apply mul_right_cancel₀ h2s
    rw [htel, ho.neg_one_zpow]
    ring



theorem dct_orthogonality (n j m : ℕ) (hj : j < n) (hm : m < n) :
    1 + 2 * ∑ r ∈ Finset.Ico 1 n, Real.cos (ang n j r) * Real.cos (ang n m r)
      = if j = m then (n : ℝ) else 0 := by
  have hn : 0 < n := lt_of_le_of_lt (Nat.zero_le j) hj
  have hnR : ((n : ℕ) : ℝ) ≠ 0 := Nat.cast_ne_zero.mpr (Nat.pos_iff_ne_zero.mp hn)
  set P : ℤ := (j : ℤ) + m + 1 with hP
  set Q : ℤ := (j : ℤ) - m with hQ
  have hprod : ∀ r : ℕ, 2 * (Real.cos (ang n j r) * Real.cos (ang n m r))
      = Real.cos (Real.pi * (P : ℝ) / n * r)
        + Real.cos (Real.pi * (Q : ℝ) / n * r) := by
    intro r
    have hAB : ang n j r + ang n m r = Real.pi * (P : ℝ) / n * r := by
      simp only [ang, hP]
      push_cast
      field_simp
      ring
    have hAB2 : ang n j r - ang n m r = Real.pi * (Q : ℝ) / n * r := by
      simp only [ang, hQ]
      push_cast
      field_simp
      ring
    rw [← hAB, ← hAB2, Real.cos_add, Real.cos_sub]
    ring
  have hmain : 2 * ∑ r ∈ Finset.Ico 1 n, Real.cos (ang n j r) * Real.cos (ang n m r)
      = (∑ r ∈ Finset.Ico 1 n, Real.cos (Real.pi * (P : ℝ) / n * r))
        + ∑ r ∈ Finset.Ico 1 n, Real.cos (Real.pi * (Q : ℝ) / n * r) := by
    rw [← Finset.sum_add_distrib, Finset.mul_sum]
    exact Finset.sum_congr rfl (fun r _ => hprod r)
  have hPpos : 0 < P := by omega
  have hPlt : P < 2 * n := by omega
  have hPnd : ¬ ((2 * (n : ℤ)) ∣ P) := by
    intro hdvd
    have := Int.le_of_dvd hPpos hdvd
    omega
  have hPsum := sum_cos_int n P hn hPnd
  have hg0P : Real.cos (Real.pi * (P : ℝ) / n * ((0 : ℕ) : ℝ)) = 1 := by
    push_cast
    simp
  have hIcoP : ∑ r ∈ Finset.Ico 1 n, Real.cos (Real.pi * (P : ℝ) / n * r)
      = (if Odd P then (1 : ℝ) else 0) - 1 := by
    have hsp := Finset.sum_range_eq_add_Ico
      (fun r : ℕ => Real.cos (Real.pi * (P : ℝ) / n * r)) hn
    simp only at hsp
    rw [hPsum, hg0P] at hsp
    linarith [hsp]
  by_cases hjm : j = m
  · have hQ0 : Q = 0 := by omega
    have hQsumIco : ∑ r ∈ Finset.Ico 1 n, Real.cos (Real.pi * (Q : ℝ) / n * r)
        = (n : ℝ) - 1 := by
      have hconst : ∀ r : ℕ, Real.cos (Real.pi * (Q : ℝ) / n * r) = 1 := by
        intro r
        rw [hQ0]
        push_cast
        simp
      rw [Finset.sum_congr rfl (fun r _ => hconst r), Finset.sum_const,
        Nat.card_Ico, nsmul_eq_mul, Nat.cast_sub hn]
      push_cast
      ring
    have hPodd : Odd P := by
      refine ⟨(m : ℤ), ?_⟩
      omega
    rw [if_pos hjm, hmain, hIcoP, hQsumIco, if_pos hPodd]
    ring
  · have hQne : Q ≠ 0 := by omega
    have hQnd : ¬ ((2 * (n : ℤ)) ∣ Q) := by
      intro hdvd
      rcases hdvd with ⟨c, hc⟩
      have hbound1 : -(n : ℤ) < Q := by omega
      have hbound2 : Q < (n : ℤ) := by omega
      have hcc : c = 0 ∨ 1 ≤ c ∨ c ≤ -1 := by omega
      rcases hcc with h0 | h1 | h2
      · rw [h0, mul_zero] at hc
        exact hQne hc
      · have hge : 2 * (n : ℤ) * 1 ≤ 2 * n * c :=
          mul_le_mul_of_nonneg_left h1 (by omega)
        rw [← hc] at hge
        omega
      · have hle : 2 * (n : ℤ) * c ≤ 2 * n * (-1) :=
          mul_le_mul_of_nonneg_left h2 (by omega)
        rw [← hc] at hle
        omega
    have hQsum := sum_cos_int n Q hn hQnd
    have hg0Q : Real.cos (Real.pi * (Q : ℝ) / n * ((0 : ℕ) : ℝ)) = 1 := by
      push_cast
      simp
    have hIcoQ : ∑ r ∈ Finset.Ico 1 n, Real.cos (Real.pi * (Q : ℝ) / n * r)
        = (if Odd Q then (1 : ℝ) else 0) - 1 := by
      have hsp := Finset.sum_range_eq_add_Ico
        (fun r : ℕ => Real.cos (Real.pi * (Q : ℝ) / n * r)) hn
      simp only at hsp
      rw [hQsum, hg0Q] at hsp
      linarith [hsp]
    have hparity : (if Odd P then (1 : ℝ) else 0)
        + (if Odd Q then (1 : ℝ) else 0) = 1 := by
      rcases Int.even_or_odd Q with he | ho
      · have hPodd : Odd P := by
          rcases he with ⟨c, hc⟩
          refine ⟨(m : ℤ) + c, ?_⟩
          omega
        rw [if_pos hPodd, if_neg (Int.not_odd_iff_even.mpr he)]
        norm_num
      · have hPeven : ¬ Odd P := by
          rcases ho with ⟨c, hc⟩
          rw [Int.not_odd_iff_even]
          refine ⟨(m : ℤ) + c + 1, ?_⟩
          omega
        rw [if_neg hPeven, if_pos ho]
        norm_num
    rw [if_neg hjm, hmain, hIcoP, hIcoQ]
    linarith [hparity]



theorem dct_roundtrip_1d (n : ℕ) (x : ℕ → ℝ) (k : ℕ) (hk : k < n) :
    redft01 n (redft10 n x) k = 2 * n * x k := by
  have hn : 0 < n := lt_of_le_of_lt (Nat.zero_le k) hk
  unfold redft01 redft10
  have h0 : ∀ u : ℕ, Real.cos (ang n u 0) = 1 := by
    intro u
    simp [ang]
  simp only [h0, mul_one]
  have e1 : ∀ r : ℕ, (2 * ∑ u ∈ Finset.range n, x u * Real.cos (ang n u r))
        * Real.cos (ang n k r)
      = ∑ u ∈ Finset.range n,
          2 * (x u * Real.cos (ang n u r) * Real.cos (ang n k r)) := by
    intro r
    rw [Finset.mul_sum, Finset.sum_mul]
    exact Finset.sum_congr rfl (fun u _ => by ring)
  rw [Finset.sum_congr rfl (fun r _ => e1 r), Finset.sum_comm]
  have e2 : ∀ u : ℕ, ∑ r ∈ Finset.Ico 1 n,
        2 * (x u * Real.cos (ang n u r) * Real.cos (ang n k r))
      = x u * (2 * ∑ r ∈ Finset.Ico 1 n,
          Real.cos (ang n u r) * Real.cos (ang n k r)) := by
    intro u
    rw [Finset.mul_sum, Finset.mul_sum]
    exact Finset.sum_congr rfl (fun r _ => by ring)
  rw [Finset.sum_congr rfl (fun u _ => e2 u)]
  have e3 : ∑ u ∈ Finset.range n, (x u * (2 * ∑ r ∈ Finset.Ico 1 n,
        Real.cos (ang n u r) * Real.cos (ang n k r)))
      = ∑ u ∈ Finset.range n, (x u * (1 + 2 * ∑ r ∈ Finset.Ico 1 n,
          Real.cos (ang n u r) * Real.cos (ang n k r)) - x u) :=
    Finset.sum_congr rfl (fun u _ => by ring)
  rw [e3, Finset.sum_sub_distrib]
  have e4 : ∑ u ∈ Finset.range n, (x u * (1 + 2 * ∑ r ∈ Finset.Ico 1 n,
        Real.cos (ang n u r) * Real.cos (ang n k r)))
      = ∑ u ∈ Finset.range n, (if u = k then x u * (n : ℝ) else 0) := by
    refine Finset.sum_congr rfl (fun u hu => ?_)
    rw [dct_orthogonality n u k (Finset.mem_range.mp hu) hk]
    by_cases h : u = k
    · rw [if_pos h, if_pos h]
    · rw [if_neg h, if_neg h, mul_zero]
  rw [e4, Finset.sum_ite_eq' (Finset.range n) k (fun u => x u * (n : ℝ)),
    if_pos (Finset.mem_range.mpr hk)]
  ring



theorem redft_swap (w h : ℕ) (H : ℕ → ℕ → ℝ) (i l : ℕ) :
    redft01 w (fun k => redft10 h (H k) l) i
      = redft10 h (fun u => redft01 w (fun k => H k u) i) l := by
  unfold redft01 redft10
  have eR : ∀ u : ℕ, (H 0 u + 2 * ∑ k ∈ Finset.Ico 1 w,
        H k u * Real.cos (ang w i k)) * Real.cos (ang h u l)
      = H 0 u * Real.cos (ang h u l) + ∑ k ∈ Finset.Ico 1 w,
          2 * (H k u * Real.cos (ang w i k) * Real.cos (ang h u l)) := by
    intro u
    rw [add_mul]
    congr 1
    rw [Finset.mul_sum, Finset.sum_mul]
    exact Finset.sum_congr rfl (fun k _ => by ring)
  rw [Finset.sum_congr rfl (fun u _ => eR u), Finset.sum_add_distrib]
  have eL : ∀ k : ℕ, (2 * ∑ u ∈ Finset.range h,
        H k u * Real.cos (ang h u l)) * Real.cos (ang w i k)
      = ∑ u ∈ Finset.range h,
          2 * (H k u * Real.cos (ang w i k) * Real.cos (ang h u l)) := by
    intro k
    rw [Finset.mul_sum, Finset.sum_mul]
    exact Finset.sum_congr rfl (fun u _ => by ring)
  rw [Finset.sum_congr rfl (fun k _ => eL k), Finset.sum_comm]
  ring

theorem redft10_const_mul (n : ℕ) (c : ℝ) (x : ℕ → ℝ) (k : ℕ) :
    redft10 n (fun j => c * x j) k = c * redft10 n x k := by
  unfold redft10
  have e : ∑ j ∈ Finset.range n, (c * x j) * Real.cos (ang n j k)
      = c * ∑ j ∈ Finset.range n, x j * Real.cos (ang n j k) := by
    rw [Finset.mul_sum]
    exact Finset.sum_congr rfl (fun j _ => by ring)
  rw [e]
  ring

theorem redft01_const_mul (n : ℕ) (c : ℝ) (x : ℕ → ℝ) (k : ℕ) :
    redft01 n (fun j => c * x j) k = c * redft01 n x k := by
  unfold redft01
  have e : ∑ j ∈ Finset.Ico 1 n, (c * x j) * Real.cos (ang n k j)
      = c * ∑ j ∈ Finset.Ico 1 n, x j * Real.cos (ang n k j) := by
    rw [Finset.mul_sum]
    exact Finset.sum_congr rfl (fun j _ => by ring)
  rw [e]
  ring

/-- C3 (amended): applying the forward transform (FFTW REDFT10 in both
dimensions) and then the inverse transform (FFTW REDFT01 in both dimensions)
with no scaling in between multiplies every in-range sample by 4 * w * h
(the FFTW composition factor 2n per dimension); it does not reproduce the
original buffer, which is recovered exactly after dividing by 4 * w * h. -/
theorem dct_roundtrip_scaled (w h : ℕ) (f : ℕ → ℕ → ℝ) (i j : ℕ)
    (hi : i < w) (hj : j < h) :
    inv2d w h (fwd2d w h f) i j = 4 * w * h * f i j := by
  unfold inv2d fwd2d
  have step1 : ∀ l : ℕ,
      redft01 w (fun k => redft10 h (fun u => redft10 w (fun v => f v u) k) l) i
        = 2 * (w : ℝ) * redft10 h (fun u => f i u) l := by
    intro l
    rw [redft_swap w h (fun k u => redft10 w (fun v => f v u) k) i l]
    have inner : ∀ u : ℕ,
        redft01 w (fun k => redft10 w (fun v => f v u) k) i
          = 2 * (w : ℝ) * f i u :=
      fun u => dct_roundtrip_1d w (fun v => f v u) i hi
    simp only [inner]
    rw [← redft10_const_mul h (2 * (w : ℝ)) (fun u => f i u) l]
  simp only [step1]
  rw [redft01_const_mul h (2 * (w : ℝ)) (fun l => redft10 h (fun u => f i u) l) j]
  show 2 * (w : ℝ) * redft01 h (redft10 h (fun u => f i u)) j = _
  rw [dct_roundtrip_1d h (fun u => f i u) j hj]
  ring



/-- C3 (counterexample): already on a 1 x 1 buffer holding the single value
1, the forward-then-inverse composition returns 4, not the original value:
the round trip without scaling does not reproduce the input. -/
theorem dct_roundtrip_counterexample :
    inv2d 1 1 (fwd2d 1 1 (fun _ _ => 1)) 0 0 ≠ 1 := by
  have hval : inv2d 1 1 (fwd2d 1 1 (fun _ _ => (1 : ℝ))) 0 0 = 4 := by
    unfold inv2d fwd2d redft01 redft10 ang
    simp [Finset.Ico_self, Finset.sum_range_one]
    norm_num
  rw [hval]
  norm_num

/-- C3 witness: the amended round-trip theorem at w = h = 1 on the constant
buffer 1. -/
theorem dct_roundtrip_scaled_witness :
    ((0 : ℕ) < 1 ∧ (0 : ℕ) < 1)
    ∧ inv2d 1 1 (fwd2d 1 1 (fun _ _ => 1)) 0 0
        = 4 * ((1 : ℕ) : ℝ) * ((1 : ℕ) : ℝ) * 1 :=
  ⟨⟨Nat.zero_lt_one, Nat.zero_lt_one⟩,
    dct_roundtrip_scaled 1 1 (fun _ _ => 1) 0 0 Nat.zero_lt_one Nat.zero_lt_one⟩

end RetinexPde
